import Mathlib

/-!
# Verification of the Invoice Creator draft model

A shallow embedding of `src/app/page.tsx` (the `InvoiceCreator` component):
the line-item list operations, the derived subtotal, the numeric input
coercions, the default draft, and the localStorage draft store built on
JSON serialization.  JavaScript numbers are modelled as exact rationals
(`ℚ`); the drafts the spec admits only carry non-negative integers and
finite decimal fractions, where rational arithmetic coincides with IEEE
arithmetic on the represented values.  `localStorage` holds one slot for
the single fixed key, modelled as `Option String`.  `Date.now()` is an
external clock value, passed to `addItem` as a parameter.
-/

namespace InvoiceCreator

/-- `interface InvoiceItem` from the source. -/
structure InvoiceItem where
  id : String
  description : String
  quantity : ℚ
  price : ℚ
deriving DecidableEq, Repr

/-- `interface InvoiceData` from the source. -/
structure InvoiceData where
  paperColor : String
  signature : Option String
  invoiceNumber : String
  date : String
  fromName : String
  fromAddress : String
  toName : String
  toAddress : String
  items : List InvoiceItem
  note : String
deriving DecidableEq, Repr

/-- `const STORAGE_KEY = "invoice-creator-data"`. -/
def STORAGE_KEY : String := "invoice-creator-data"

/-- One entry of the `PAPER_COLORS` palette. -/
structure PaperColor where
  name : String
  value : String
deriving DecidableEq, Repr

instance : Inhabited PaperColor := ⟨⟨"", ""⟩⟩

/-- `const PAPER_COLORS = [...]` from the source. -/
def PAPER_COLORS : List PaperColor :=
  [ ⟨"Cream", "oklch(0.96 0.01 85)"⟩,
    ⟨"White", "oklch(0.99 0 0)"⟩,
    ⟨"Mint", "oklch(0.96 0.02 160)"⟩,
    ⟨"Peach", "oklch(0.96 0.02 40)"⟩,
    ⟨"Blue", "oklch(0.96 0.02 240)"⟩ ]

/-- `defaultData` from the source; `new Date().toISOString().split("T")[0]`
is the external current date, passed in as `today`. -/
def defaultData (today : String) : InvoiceData :=
  { paperColor := PAPER_COLORS[0]!.value
    signature := none
    invoiceNumber := "INV-001"
    date := today
    fromName := ""
    fromAddress := ""
    toName := ""
    toAddress := ""
    items := [{ id := "1", description := "", quantity := 1, price := 0 }]
    note := "" }

/-- `addItem` from the source: appends
`{ id: Date.now().toString(), description: "", quantity: 1, price: 0 }`;
the clock reading `Date.now()` is the parameter `now`. -/
def addItem (now : ℕ) (items : List InvoiceItem) : List InvoiceItem :=
  items ++ [{ id := toString now, description := "", quantity := 1, price := 0 }]

/-- `removeItem` from the source: guarded by `items.length > 1`, then
`items.filter((item) => item.id !== id)`. -/
def removeItem (id : String) (items : List InvoiceItem) : List InvoiceItem :=
  if 1 < items.length then items.filter (fun item => item.id ≠ id) else items

/-- The correlated `(field, value)` payload of `updateItem`: the source's
`field: keyof InvoiceItem, value: string | number`, where every call site
pairs `description` with a string and `quantity`/`price` with a number. -/
inductive ItemUpdate where
  | setId (v : String)
  | setDescription (v : String)
  | setQuantity (v : ℚ)
  | setPrice (v : ℚ)
deriving DecidableEq, Repr

/-- The spread `{ ...item, [field]: value }` from `updateItem`. -/
def applyUpdate (item : InvoiceItem) : ItemUpdate → InvoiceItem
  | .setId v => { item with id := v }
  | .setDescription v => { item with description := v }
  | .setQuantity v => { item with quantity := v }
  | .setPrice v => { item with price := v }

/-- `updateItem` from the source:
`items.map((item) => (item.id === id ? { ...item, [field]: value } : item))`. -/
def updateItem (id : String) (u : ItemUpdate) (items : List InvoiceItem) :
    List InvoiceItem :=
  items.map (fun item => if item.id = id then applyUpdate item u else item)

/-- `subtotal` from the source:
`items.reduce((sum, item) => sum + item.quantity * item.price, 0)`. -/
def subtotal (items : List InvoiceItem) : ℚ :=
  items.foldl (fun sum item => sum + item.quantity * item.price) 0

/-- The TOTAL line of the rendering displays the same `subtotal` binding
(there is no separate grand-total computation in the source). -/
def grandTotal (items : List InvoiceItem) : ℚ := subtotal items

/-! ## JavaScript numeric input coercion

The quantity input stores `Number.parseInt(e.target.value) || 1`, the price
input stores `Number.parseFloat(e.target.value) || 0`.  `x || d` on a JS
number yields `d` exactly when `x` is falsy, i.e. `NaN`, `0` or `-0`; a
failed parse is `NaN`, modelled as `none`. -/

/-- JavaScript whitespace test for the characters relevant here. -/
def isWsChar (c : Char) : Bool :=
  c = ' ' ∨ c = '\t' ∨ c = '\n' ∨ c = '\r' ∨ c = '\x0c' ∨ c = '\x0b'

/-- Drop leading whitespace. -/
def skipWs : List Char → List Char
  | [] => []
  | c :: cs => if isWsChar c then skipWs cs else c :: cs

/-- Greedily consume decimal digits, returning the accumulated value, the
number of digits consumed, and the rest of the input. -/
def takeDigits : List Char → ℕ → ℕ → ℕ × ℕ × List Char
  | [], v, n => (v, n, [])
  | c :: cs, v, n =>
    if c.isDigit then takeDigits cs (10 * v + (c.toNat - 48)) (n + 1)
    else (v, n, c :: cs)

/-- Is `c` a hexadecimal digit? -/
def isHexChar (c : Char) : Bool :=
  c.isDigit ∨ ('a' ≤ c ∧ c ≤ 'f') ∨ ('A' ≤ c ∧ c ≤ 'F')

/-- Numeric value of a hexadecimal digit character. -/
def hexCharValue (c : Char) : ℕ :=
  if c.isDigit then c.toNat - 48
  else if 'a' ≤ c ∧ c ≤ 'f' then c.toNat - 87
  else c.toNat - 55

/-- Greedily consume hexadecimal digits (for the `0x` branch of
`Number.parseInt`). -/
def takeHexDigits : List Char → ℕ → ℕ → ℕ × ℕ × List Char
  | [], v, n => (v, n, [])
  | c :: cs, v, n =>
    if isHexChar c then takeHexDigits cs (16 * v + hexCharValue c) (n + 1)
    else (v, n, c :: cs)

/-- Strip an optional sign, returning `true` for a leading `-`. -/
def takeSign : List Char → Bool × List Char
  | '-' :: cs => (true, cs)
  | '+' :: cs => (false, cs)
  | cs => (false, cs)

/-- `Number.parseInt(s)` (radix unspecified): skip whitespace, optional
sign, optional `0x`/`0X` hex prefix, then the longest digit prefix; `NaN`
(here `none`) when no digit is found. -/
def jsParseInt (s : String) : Option ℤ :=
  let (neg, cs) := takeSign (skipWs s.toList)
  let signed (v : ℕ) : ℤ := if neg then -(v : ℤ) else (v : ℤ)
  match cs with
  | '0' :: c :: rest =>
    if c = 'x' ∨ c = 'X' then
      let (v, n, _) := takeHexDigits rest 0 0
      if n = 0 then none else some (signed v)
    else
      let (v, n, _) := takeDigits ('0' :: c :: rest) 0 0
      if n = 0 then none else some (signed v)
  | cs =>
    let (v, n, _) := takeDigits cs 0 0
    if n = 0 then none else some (signed v)

/-- `Number.parseFloat(s)`: skip whitespace, optional sign, digits with an
optional fraction part and an optional decimal exponent; `NaN` (`none`)
when no digit is found in the mantissa.  (`Infinity` literals cannot arise
from a number input and are not modelled.) -/
def jsParseFloat (s : String) : Option ℚ :=
  let (neg, cs) := takeSign (skipWs s.toList)
  let (i, ni, cs1) := takeDigits cs 0 0
  let fracPart : Option (ℚ × List Char) :=
    match cs1 with
    | '.' :: r =>
      let (f, nf, cs2) := takeDigits r 0 0
      if ni = 0 ∧ nf = 0 then none
      else some ((i : ℚ) + (f : ℚ) / 10 ^ nf, cs2)
    | _ => if ni = 0 then none else some ((i : ℚ), cs1)
  match fracPart with
  | none => none
  | some (m, cs3) =>
    let withExp : ℚ :=
      match cs3 with
      | c :: r =>
        if c = 'e' ∨ c = 'E' then
          let (eneg, r1) := takeSign r
          let (ev, ne, _) := takeDigits r1 0 0
          if ne = 0 then m
          else m * (10 : ℚ) ^ (if eneg then -(ev : ℤ) else (ev : ℤ))
        else m
      | [] => m
    some (if neg then -withExp else withExp)

/-- JS truthiness of a number-or-NaN: `x || d`. -/
def jsNumOr (x : Option ℚ) (d : ℚ) : ℚ :=
  match x with
  | none => d
  | some v => if v = 0 then d else v

/-- The stored quantity for an entered text:
`Number.parseInt(e.target.value) || 1`. -/
def quantityFromInput (s : String) : ℚ :=
  jsNumOr ((jsParseInt s).map (fun i => (i : ℚ))) 1

/-- The stored price for an entered text:
`Number.parseFloat(e.target.value) || 0`. -/
def priceFromInput (s : String) : ℚ :=
  jsNumOr (jsParseFloat s) 0

/-! ## JSON values

`JSON.stringify` / `JSON.parse` from the draft store.  JSON values are the
structured JS values exchanged with storage; numbers are exact rationals. -/

/-- A JSON value (a structured JavaScript value). -/
inductive Json where
  | null
  | bool (b : Bool)
  | num (q : ℚ)
  | str (s : String)
  | arr (elems : List Json)
  | obj (members : List (String × Json))

/-! ### Serialization (`JSON.stringify`) -/

/-- Decimal digit characters of `n`, most significant first. -/
def natToChars (n : ℕ) : List Char :=
  if n = 0 then ['0'] else ((Nat.digits 10 n).map Nat.digitChar).reverse

/-- Exactly `e` decimal digits of `m` (mod `10 ^ e`), zero padded, most
significant first. -/
def padDigits : ℕ → ℕ → List Char
  | 0, _ => []
  | e + 1, m => padDigits e (m / 10) ++ [Nat.digitChar (m % 10)]

/-- Drop trailing decimal zeros of the scaled representation `n / 10 ^ e`,
as JS prints the shortest decimal form. -/
def stripZeros : ℕ → ℕ → ℕ × ℕ
  | n, 0 => (n, 0)
  | n, e + 1 => if n % 10 = 0 then stripZeros (n / 10) e else (n, e + 1)

/-- Print the non-negative decimal `n / 10 ^ e`. -/
def printDec (n e : ℕ) : List Char :=
  if e = 0 then natToChars n
  else natToChars (n / 10 ^ e) ++ '.' :: padDigits e (n % 10 ^ e)

/-- Print a non-negative rational with a power-of-ten denominator in
decimal notation. -/
def printNumNN (q : ℚ) : List Char :=
  let e0 := q.den
  let n0 := q.num.toNat * (10 ^ e0 / q.den)
  let (n, e) := stripZeros n0 e0
  printDec n e

/-- `JSON.stringify` of a decimal number. -/
def printNum (q : ℚ) : List Char :=
  if q < 0 then '-' :: printNumNN (-q) else printNumNN q

/-- `JSON.stringify`'s escape of one string character. -/
def escapeChar (c : Char) : List Char :=
  if c = '"' then ['\\', '"']
  else if c = '\\' then ['\\', '\\']
  else if c.toNat < 32 then
    if c = '\x08' then ['\\', 'b']
    else if c = '\t' then ['\\', 't']
    else if c = '\n' then ['\\', 'n']
    else if c = '\x0c' then ['\\', 'f']
    else if c = '\r' then ['\\', 'r']
    else ['\\', 'u', '0', '0', Nat.digitChar (c.toNat / 16),
          Nat.digitChar (c.toNat % 16)]
  else [c]

/-- `JSON.stringify` of a string: quoted, with characters escaped. -/
def printStr (s : String) : List Char :=
  '"' :: s.data.flatMap escapeChar ++ ['"']

mutual

/-- `JSON.stringify` (no indentation), to a character list. -/
def printJson : Json → List Char
  | .null => 'n' :: 'u' :: 'l' :: 'l' :: []
  | .bool true => 't' :: 'r' :: 'u' :: 'e' :: []
  | .bool false => 'f' :: 'a' :: 'l' :: 's' :: 'e' :: []
  | .num q => printNum q
  | .str s => printStr s
  | .arr xs => '[' :: printElems xs ++ [']']
  | .obj ms => '{' :: printMembers ms ++ ['}']

/-- Comma-separated array elements. -/
def printElems : List Json → List Char
  | [] => []
  | [x] => printJson x
  | x :: y :: xs => printJson x ++ ',' :: printElems (y :: xs)

/-- Comma-separated `"key":value` object members. -/
def printMembers : List (String × Json) → List Char
  | [] => []
  | [(k, v)] => printStr k ++ ':' :: printJson v
  | (k, v) :: m :: ms => printStr k ++ ':' :: printJson v ++ ',' :: printMembers (m :: ms)

end

/-! ### Parsing (`JSON.parse`) -/

/-- Parse the body of a JSON string (after the opening quote), undoing the
escapes, up to and including the closing quote. -/
def parseStrChars (cs : List Char) : Option (List Char × List Char) :=
  match cs with
  | [] => none
  | c :: r =>
    if c = '"' then some ([], r)
    else if c = '\\' then
      match r with
      | [] => none
      | e :: r1 =>
        if e = '"' then (parseStrChars r1).map (fun p => ('"' :: p.1, p.2))
        else if e = '\\' then (parseStrChars r1).map (fun p => ('\\' :: p.1, p.2))
        else if e = '/' then (parseStrChars r1).map (fun p => ('/' :: p.1, p.2))
        else if e = 'b' then (parseStrChars r1).map (fun p => ('\x08' :: p.1, p.2))
        else if e = 'f' then (parseStrChars r1).map (fun p => ('\x0c' :: p.1, p.2))
        else if e = 'n' then (parseStrChars r1).map (fun p => ('\n' :: p.1, p.2))
        else if e = 'r' then (parseStrChars r1).map (fun p => ('\r' :: p.1, p.2))
        else if e = 't' then (parseStrChars r1).map (fun p => ('\t' :: p.1, p.2))
        else if e = 'u' then
          match r1 with
          | h1 :: h2 :: h3 :: h4 :: r2 =>
            if isHexChar h1 ∧ isHexChar h2 ∧ isHexChar h3 ∧ isHexChar h4 then
              (parseStrChars r2).map (fun p =>
                (Char.ofNat (((hexCharValue h1 * 16 + hexCharValue h2) * 16
                  + hexCharValue h3) * 16 + hexCharValue h4) :: p.1, p.2))
            else none
          | _ => none
        else none
    else if c.toNat < 32 then none
    else (parseStrChars r).map (fun p => (c :: p.1, p.2))
termination_by structural cs

/-- Parse the optional fraction part of a JSON number, given the integer
part `i`. -/
def parseFrac (i : ℕ) : List Char → Option (ℚ × List Char)
  | c :: r =>
    if c = '.' then
      let (f, nf, cs3) := takeDigits r 0 0
      if nf = 0 then none else some ((i : ℚ) + (f : ℚ) / 10 ^ nf, cs3)
    else some ((i : ℚ), c :: r)
  | [] => some ((i : ℚ), [])

/-- Parse the optional exponent part of a JSON number, given the mantissa
`m`. -/
def parseExp (m : ℚ) : List Char → Option (ℚ × List Char)
  | c :: r =>
    if c = 'e' ∨ c = 'E' then
      let (eneg, r1) := takeSign r
      let (ev, k, r2) := takeDigits r1 0 0
      if k = 0 then none
      else some (m * (10 : ℚ) ^ (if eneg then -(ev : ℤ) else (ev : ℤ)), r2)
    else some (m, c :: r)
  | [] => some (m, [])

/-- Parse a JSON number: optional `-`, integer digits, optional fraction,
optional decimal exponent. -/
def jsonParseNum (cs : List Char) : Option (ℚ × List Char) :=
  let (neg, cs1) :=
    match cs with
    | c :: r => if c = '-' then (true, r) else (false, c :: r)
    | [] => (false, [])
  let (i, ni, cs2) := takeDigits cs1 0 0
  if ni = 0 then none
  else
    match parseFrac i cs2 with
    | none => none
    | some (m, cs4) =>
      (parseExp m cs4).map (fun p => (if neg then -p.1 else p.1, p.2))

mutual

/-- Parse one JSON value; the fuel bounds the nesting recursion. -/
def parseVal : ℕ → List Char → Option (Json × List Char)
  | 0, _ => none
  | f + 1, cs =>
    match skipWs cs with
    | [] => none
    | c :: r =>
      if c = 'n' then
        match r with
        | 'u' :: 'l' :: 'l' :: r1 => some (.null, r1)
        | _ => none
      else if c = 't' then
        match r with
        | 'r' :: 'u' :: 'e' :: r1 => some (.bool true, r1)
        | _ => none
      else if c = 'f' then
        match r with
        | 'a' :: 'l' :: 's' :: 'e' :: r1 => some (.bool false, r1)
        | _ => none
      else if c = '"' then
        (parseStrChars r).map (fun p => (.str (String.mk p.1), p.2))
      else if c = '[' then
        match skipWs r with
        | [] => none
        | c1 :: r1 =>
          if c1 = ']' then some (.arr [], r1)
          else (parseElems f (c1 :: r1)).map (fun p => (.arr p.1, p.2))
      else if c = '{' then
        match skipWs r with
        | [] => none
        | c1 :: r1 =>
          if c1 = '}' then some (.obj [], r1)
          else (parseMembers f (c1 :: r1)).map (fun p => (.obj p.1, p.2))
      else if c = '-' ∨ c.isDigit then
        (jsonParseNum (c :: r)).map (fun p => (.num p.1, p.2))
      else none

/-- Parse the elements of a non-empty JSON array, up to and including the
closing bracket. -/
def parseElems : ℕ → List Char → Option (List Json × List Char)
  | 0, _ => none
  | f + 1, cs =>
    match parseVal f cs with
    | none => none
    | some (v, r) =>
      match skipWs r with
      | [] => none
      | c :: r1 =>
        if c = ',' then (parseElems f r1).map (fun p => (v :: p.1, p.2))
        else if c = ']' then some ([v], r1)
        else none

/-- Parse the members of a non-empty JSON object, up to and including the
closing brace. -/
def parseMembers : ℕ → List Char → Option (List (String × Json) × List Char)
  | 0, _ => none
  | f + 1, cs =>
    match skipWs cs with
    | [] => none
    | c :: r =>
      if c = '"' then
        match parseStrChars r with
        | none => none
        | some (k, r1) =>
          match skipWs r1 with
          | [] => none
          | c1 :: r2 =>
            if c1 = ':' then
              match parseVal f r2 with
              | none => none
              | some (v, r3) =>
                match skipWs r3 with
                | [] => none
                | c2 :: r4 =>
                  if c2 = ',' then
                    (parseMembers f r4).map (fun p => ((String.mk k, v) :: p.1, p.2))
                  else if c2 = '}' then some ([(String.mk k, v)], r4)
                  else none
            else none
      else none

end

/-- `JSON.stringify` to a string. -/
def jsonStringify (j : Json) : String := String.mk (printJson j)

/-- `JSON.parse`: `none` models a thrown `SyntaxError`.  The fuel
`2 * length + 2` dominates the nesting depth of any parseable input. -/
def jsonParse (s : String) : Option Json :=
  match parseVal (2 * s.length + 2) s.data with
  | some (j, rest) => if skipWs rest = [] then some j else none
  | none => none

/-! ## The draft store -/

/-- The JS object value of one line item, member order as created in the
source (`{ id, description, quantity, price }`). -/
def encodeItem (item : InvoiceItem) : Json :=
  .obj [("id", .str item.id), ("description", .str item.description),
        ("quantity", .num item.quantity), ("price", .num item.price)]

/-- The JS object value of the whole draft, member order as in the
`currentData` literal of the source. -/
def encodeInvoice (d : InvoiceData) : Json :=
  .obj [("paperColor", .str d.paperColor),
        ("signature", match d.signature with | none => .null | some s => .str s),
        ("invoiceNumber", .str d.invoiceNumber),
        ("date", .str d.date),
        ("fromName", .str d.fromName),
        ("fromAddress", .str d.fromAddress),
        ("toName", .str d.toName),
        ("toAddress", .str d.toAddress),
        ("items", .arr (d.items.map encodeItem)),
        ("note", .str d.note)]

/-- `saveToLocalStorage`: `localStorage.setItem(STORAGE_KEY, JSON.stringify(data))`,
overwriting the single slot of the fixed key. -/
def saveToLocalStorage (data : InvoiceData) (_store : Option String) : Option String :=
  some (jsonStringify (encodeInvoice data))

/-- `loadFromLocalStorage`: `stored ? JSON.parse(stored) : null`, with a
thrown parse error caught and turned into `null` (`Json.null`). -/
def loadFromLocalStorage (store : Option String) : Json :=
  match store with
  | none => Json.null
  | some stored =>
    if stored = "" then Json.null
    else
      match jsonParse stored with
      | some j => j
      | none => Json.null

/-- JS truthiness of the value returned by `loadFromLocalStorage`, as
tested by `if (savedData)` in the mount effect. -/
def truthy : Json → Bool
  | .null => false
  | .bool b => b
  | .num q => decide (q ≠ 0)
  | .str s => decide (s ≠ "")
  | .arr _ => true
  | .obj _ => true

/-- The component state after the mount effect: the `useState` defaults,
overwritten from the saved draft only when `loadFromLocalStorage` returned
a truthy value.  `restore` abstracts the block of field setters applied to
a truthy `savedData`. -/
def stateAfterMount (restore : Json → InvoiceData) (store : Option String)
    (today : String) : InvoiceData :=
  let savedData := loadFromLocalStorage store
  if truthy savedData then restore savedData else defaultData today

/-! ## Well-formedness of the persisted values -/

/-- A non-negative finite decimal fraction: the numbers the §3 draft
schema admits (non-negative integers and non-negative decimal prices). -/
def IsNNDec (q : ℚ) : Prop := ∃ (m e : ℕ), q = (m : ℚ) / 10 ^ e

/-- All numbers in the value are non-negative finite decimals. -/
inductive WfJson : Json → Prop
  | null : WfJson .null
  | bool (b : Bool) : WfJson (.bool b)
  | num {q : ℚ} (h : IsNNDec q) : WfJson (.num q)
  | str (s : String) : WfJson (.str s)
  | arr {xs : List Json} (h : ∀ x ∈ xs, WfJson x) : WfJson (.arr xs)
  | obj {ms : List (String × Json)} (h : ∀ m ∈ ms, WfJson m.2) : WfJson (.obj ms)

/-- A draft matching the §3 schema: the paper color is one of the fixed
palette values, quantities are non-negative integers, prices non-negative
finite decimals. -/
def SchemaConforming (d : InvoiceData) : Prop :=
  d.paperColor ∈ PAPER_COLORS.map PaperColor.value ∧
  ∀ item ∈ d.items, (∃ n : ℕ, item.quantity = (n : ℚ)) ∧ IsNNDec item.price

/-- A concrete schema-conforming draft used to instantiate the store
round trip. -/
def sampleDraft : InvoiceData :=
  { paperColor := "oklch(0.99 0 0)"
    signature := some "data:image/png;base64,AA"
    invoiceNumber := "INV-007"
    date := "2026-10-12"
    fromName := "Ada Lovelace"
    fromAddress := "1 Analytical Way\nLondon"
    toName := "Bob \"The Builder\""
    toAddress := "2 Engine Road"
    items := [⟨"1", "widget", 3, 21 / 2⟩, ⟨"1760000000000", "setup fee", 1, 0⟩]
    note := "Payment due in 30 days" }

/-! ## Sequences of item-list operations -/

/-- One user action on the item list: an Add Item click (with the clock
value `Date.now()` read at that moment) or a row delete click. -/
inductive ItemOp where
  | add (now : ℕ)
  | remove (id : String)
deriving DecidableEq, Repr

/-- Apply one operation to the item list. -/
def applyOp (items : List InvoiceItem) : ItemOp → List InvoiceItem
  | .add now => addItem now items
  | .remove id => removeItem id items

/-- Run a sequence of operations from left to right. -/
def runOps (items : List InvoiceItem) (ops : List ItemOp) : List InvoiceItem :=
  ops.foldl applyOp items

/-- Every `add` in the sequence happens at a clock value whose string is
not an id already present at that point (`Date.now()` collisions within
one millisecond would violate this). -/
def FreshOps : List ItemOp → List InvoiceItem → Prop
  | [], _ => True
  | .add now :: ops, items =>
      toString now ∉ items.map InvoiceItem.id ∧ FreshOps ops (addItem now items)
  | .remove id :: ops, items => FreshOps ops (removeItem id items)

/-- What may follow a serialized number: end of input or a character that
cannot extend the number (the delimiters `,`, `]`, `}` qualify). -/
def DelimOk : List Char → Prop
  | [] => True
  | c :: _ => c.isDigit = false ∧ c ≠ '.' ∧ c ≠ 'e' ∧ c ≠ 'E'

/-- The head of the input, if any, is not a decimal digit. -/
def NoDigitHead : List Char → Prop
  | [] => True
  | c :: _ => c.isDigit = false

mutual

/-- Nesting fuel sufficient for `parseVal` on the serialized value. -/
def fuelJ : Json → ℕ
  | .null => 1
  | .bool _ => 1
  | .num _ => 1
  | .str _ => 1
  | .arr xs => 1 + fuelElems xs
  | .obj ms => 1 + fuelMembers ms

/-- Fuel sufficient for `parseElems` on the serialized elements. -/
def fuelElems : List Json → ℕ
  | [] => 0
  | x :: xs => 1 + fuelJ x + fuelElems xs

/-- Fuel sufficient for `parseMembers` on the serialized members. -/
def fuelMembers : List (String × Json) → ℕ
  | [] => 0
  | (_, v) :: ms => 1 + fuelJ v + fuelMembers ms

end

/-!
# Theorems

The claims of the specification, settled against the embedding above.
-/

/-- Folding the line totals from any accumulator. -/
theorem subtotal_foldl (items : List InvoiceItem) (a : ℚ) :
    items.foldl (fun sum item => sum + item.quantity * item.price) a =
      a + (items.map (fun item => item.quantity * item.price)).sum := by
  induction items generalizing a with
  | nil => simp
  | cons h t ih => simp [ih]; ring

/-- C2: for every item list (including the default one-empty-item list),
the subtotal is the sum of quantity × price over the items, the displayed
grand total equals the subtotal, and an all-zero-price list (in particular
the default list) has subtotal 0. -/
theorem c2_totals_consistent (items : List InvoiceItem) :
    (subtotal items = (items.map (fun item => item.quantity * item.price)).sum ∧
     grandTotal items = subtotal items) ∧
    ((∀ item ∈ items, item.price = 0) → subtotal items = 0) ∧
    (∀ today, subtotal (defaultData today).items = 0) := by
  have hsum : subtotal items = (items.map (fun item => item.quantity * item.price)).sum := by
    simpa using subtotal_foldl items 0
  refine ⟨⟨hsum, rfl⟩, ?_, ?_⟩
  · intro h
    rw [hsum]
    apply List.sum_eq_zero
    intro x hx
    obtain ⟨item, hitem, rfl⟩ := List.mem_map.mp hx
    rw [h item hitem, mul_zero]
  · intro today
    simp [defaultData, subtotal]

/-- Witness for C2 at a concrete all-zero-price list. -/
theorem c2_totals_consistent_witness :
    (∀ item ∈ ([⟨"a", "z", 3, 0⟩, ⟨"b", "w", 7, 0⟩] : List InvoiceItem), item.price = 0) ∧
    subtotal [⟨"a", "z", 3, 0⟩, ⟨"b", "w", 7, 0⟩] = 0 :=
  ⟨by decide, (c2_totals_consistent [⟨"a", "z", 3, 0⟩, ⟨"b", "w", 7, 0⟩]).2.1 (by decide)⟩

/-- C4: on a list of length exactly one, `removeItem` is a no-op for every
id, matching or not. -/
theorem c4_removeItem_singleton_noop (items : List InvoiceItem) (id : String)
    (h : items.length = 1) : removeItem id items = items := by
  unfold removeItem
  rw [if_neg]
  omega

/-- Witness for C4 on the concrete singleton list, with a matching id. -/
theorem c4_removeItem_singleton_noop_witness :
    ([⟨"1", "d", 2, 3⟩] : List InvoiceItem).length = 1 ∧
    removeItem "1" [⟨"1", "d", 2, 3⟩] = [⟨"1", "d", 2, 3⟩] :=
  ⟨rfl, c4_removeItem_singleton_noop [⟨"1", "d", 2, 3⟩] "1" rfl⟩

/-- C10: an id matching no item makes both `removeItem` (at any length)
and `updateItem` (for any field and value) the identity. -/
theorem c10_missing_id_noop (items : List InvoiceItem) (id : String)
    (h : id ∉ items.map InvoiceItem.id) :
    removeItem id items = items ∧ ∀ u, updateItem id u items = items := by
  have hall : ∀ item ∈ items, item.id ≠ id := by
    intro item hitem heq
    exact h (heq ▸ List.mem_map_of_mem InvoiceItem.id hitem)
  constructor
  · unfold removeItem
    have hfilter : items.filter (fun item => item.id ≠ id) = items :=
      List.filter_eq_self.mpr (fun a ha => by simpa using hall a ha)
    rw [hfilter]
    split <;> rfl
  · intro u
    unfold updateItem
    rw [List.map_congr_left (fun item hitem => if_neg (hall item hitem)),
      List.map_id']

/-- Witness for C10 at a concrete list and missing id. -/
theorem c10_missing_id_noop_witness :
    ("zzz" ∉ ([⟨"1", "", 1, 0⟩, ⟨"2", "x", 2, 5⟩] : List InvoiceItem).map InvoiceItem.id) ∧
    (removeItem "zzz" [⟨"1", "", 1, 0⟩, ⟨"2", "x", 2, 5⟩] = [⟨"1", "", 1, 0⟩, ⟨"2", "x", 2, 5⟩] ∧
     ∀ u, updateItem "zzz" u [⟨"1", "", 1, 0⟩, ⟨"2", "x", 2, 5⟩] = [⟨"1", "", 1, 0⟩, ⟨"2", "x", 2, 5⟩]) :=
  ⟨by decide, c10_missing_id_noop [⟨"1", "", 1, 0⟩, ⟨"2", "x", 2, 5⟩] "zzz" (by decide)⟩

/-- C8: an entered text that is empty or fails to parse stores quantity 1
(via `parseInt || 1`) and price 0 (via `parseFloat || 0`). -/
theorem c8_invalid_input_coercion (s : String) (item : InvoiceItem) :
    ((s = "" ∨ jsParseInt s = none) →
      (applyUpdate item (.setQuantity (quantityFromInput s))).quantity = 1) ∧
    ((s = "" ∨ jsParseFloat s = none) →
      (applyUpdate item (.setPrice (priceFromInput s))).price = 0) := by
  constructor
  · rintro (rfl | h)
    · rfl
    · simp [applyUpdate, quantityFromInput, h, jsNumOr]
  · rintro (rfl | h)
    · rfl
    · simp [applyUpdate, priceFromInput, h, jsNumOr]

/-- Witness for C8 at the unparseable entry `"x"`. -/
theorem c8_invalid_input_coercion_witness :
    (jsParseInt "x" = none ∧ jsParseFloat "x" = none) ∧
    (applyUpdate ⟨"1", "", 1, 0⟩ (.setQuantity (quantityFromInput "x"))).quantity = 1 ∧
    (applyUpdate ⟨"1", "", 1, 0⟩ (.setPrice (priceFromInput "x"))).price = 0 :=
  ⟨⟨rfl, rfl⟩,
   (c8_invalid_input_coercion "x" ⟨"1", "", 1, 0⟩).1 (Or.inr rfl),
   (c8_invalid_input_coercion "x" ⟨"1", "", 1, 0⟩).2 (Or.inr rfl)⟩

/-- C9: entering `"0"` in the quantity field stores 1 (the falsy parse
result 0 is replaced by the default), while entering `"-5"` stores the
negative quantity −5 unchanged at the model level. -/
theorem c9_zero_coerced_negative_kept (item : InvoiceItem) :
    (applyUpdate item (.setQuantity (quantityFromInput "0"))).quantity = 1 ∧
    (applyUpdate item (.setQuantity (quantityFromInput "-5"))).quantity = -5 := by
  constructor <;> simp [applyUpdate] <;> decide

/-- With pairwise-distinct ids, a filter on one id drops at most one item. -/
theorem length_le_filter_ne_add_one (items : List InvoiceItem) (x : String)
    (h : (items.map InvoiceItem.id).Nodup) :
    items.length ≤ (items.filter (fun item => item.id ≠ x)).length + 1 := by
  induction items with
  | nil => simp
  | cons hd tl ih =>
    simp only [List.map_cons, List.nodup_cons] at h
    by_cases hx : hd.id = x
    · have htl : tl.filter (fun item => item.id ≠ x) = tl :=
        List.filter_eq_self.mpr (fun a ha => by
          simp only [ne_eq, decide_eq_true_eq]
          intro heq
          exact h.1 (hx ▸ heq ▸ List.mem_map_of_mem InvoiceItem.id ha))
      have hcons : (hd :: tl).filter (fun item => item.id ≠ x) =
          tl.filter (fun item => item.id ≠ x) := by
        simp [List.filter_cons, hx]
      rw [hcons, htl]
      simp
    · have hcons : (hd :: tl).filter (fun item => item.id ≠ x) =
          hd :: tl.filter (fun item => item.id ≠ x) := by
        simp [List.filter_cons, hx]
      have := ih h.2
      rw [hcons]
      simp only [List.length_cons]
      omega

/-- `removeItem` keeps the list non-empty when ids are pairwise distinct. -/
theorem removeItem_length (items : List InvoiceItem) (x : String)
    (hnodup : (items.map InvoiceItem.id).Nodup) (hlen : 1 ≤ items.length) :
    1 ≤ (removeItem x items).length := by
  unfold removeItem
  split
  · have := length_le_filter_ne_add_one items x hnodup
    omega
  · exact hlen

/-- `removeItem` preserves pairwise-distinct ids. -/
theorem removeItem_nodup (items : List InvoiceItem) (x : String)
    (hnodup : (items.map InvoiceItem.id).Nodup) :
    ((removeItem x items).map InvoiceItem.id).Nodup := by
  unfold removeItem
  split
  · exact hnodup.sublist ((List.filter_sublist items).map InvoiceItem.id)
  · exact hnodup

/-- `addItem` preserves pairwise-distinct ids when the clock string is
fresh, and grows the list by one. -/
theorem addItem_nodup (items : List InvoiceItem) (now : ℕ)
    (hfresh : toString now ∉ items.map InvoiceItem.id)
    (hnodup : (items.map InvoiceItem.id).Nodup) :
    ((addItem now items).map InvoiceItem.id).Nodup := by
  simp [addItem, List.nodup_append, hnodup, hfresh]

/-- C3 (amended): starting from a list of length at least 1 whose ids are
pairwise distinct, and running any sequence of `addItem`/`removeItem`
calls in which each `addItem` happens at a clock value whose string is not
an id already present, the list length never drops below 1 after any
prefix. -/
theorem c3_amended_never_below_one (ops : List ItemOp) (items : List InvoiceItem)
    (hlen : 1 ≤ items.length) (hnodup : (items.map InvoiceItem.id).Nodup)
    (hfresh : FreshOps ops items) :
    ∀ k, 1 ≤ (runOps items (ops.take k)).length := by
  intro k
  induction ops generalizing items k with
  | nil => simpa [runOps] using hlen
  | cons op ops ih =>
    cases k with
    | zero => simpa [runOps] using hlen
    | succ k =>
      cases op with
      | add now =>
        obtain ⟨hf, hrest⟩ := hfresh
        have hlen' : 1 ≤ (addItem now items).length := by
          simp [addItem]
        simpa [runOps, applyOp] using
          ih (addItem now items) hlen' (addItem_nodup items now hf hnodup) hrest k
      | remove id =>
        simpa [runOps, applyOp] using
          ih (removeItem id items) (removeItem_length items id hnodup hlen)
            (removeItem_nodup items id hnodup) hfresh k

/-- Witness for the amended C3 on a concrete run: default list, one add at
clock 5, then removing the original item. -/
theorem c3_amended_never_below_one_witness :
    1 ≤ (runOps [⟨"1", "", 1, 0⟩] ([ItemOp.add 5, ItemOp.remove "1"].take 2)).length :=
  c3_amended_never_below_one [ItemOp.add 5, ItemOp.remove "1"] [⟨"1", "", 1, 0⟩]
    (by decide) (by decide) ⟨by decide, trivial⟩ 2

/-- Counterexample to C3 as stated: from a length-2 list whose two items
share the id "a" (length at least 1, as the claim allows), a single
`removeItem "a"` filters out both items and the length drops to 0. -/
theorem c3_counterexample :
    1 ≤ ([⟨"a", "", 1, 0⟩, ⟨"a", "x", 2, 3⟩] : List InvoiceItem).length ∧
    (runOps [⟨"a", "", 1, 0⟩, ⟨"a", "x", 2, 3⟩] [ItemOp.remove "a"]).length = 0 := by
  constructor <;> decide

/-- Counterexample to C5 as stated: with an item of id "5" present and the
clock at 5 ms, `addItem` appends a new item whose generated id "5" is not
distinct from the existing id — the resulting id list has a duplicate. -/
theorem c5_counterexample :
    addItem 5 [⟨"5", "x", 2, 3⟩] = [⟨"5", "x", 2, 3⟩, ⟨"5", "", 1, 0⟩] ∧
    ¬ (((addItem 5 [⟨"5", "x", 2, 3⟩]).map InvoiceItem.id).Nodup) := by
  constructor <;> decide

/-- C5 (amended): `addItem` appends exactly one new item at the end, with
empty description, quantity 1, price 0 and id `Date.now().toString()`,
leaving the existing items unchanged in order; the ids of the result are
pairwise distinct exactly when the old ones were and the clock string is
not an existing id (which two adds within one millisecond violate). -/
theorem c5_amended_append_fresh (items : List InvoiceItem) (now : ℕ) :
    addItem now items =
      items ++ [{ id := toString now, description := "", quantity := 1, price := 0 }] ∧
    (((addItem now items).map InvoiceItem.id).Nodup ↔
      (items.map InvoiceItem.id).Nodup ∧ toString now ∉ items.map InvoiceItem.id) := by
  refine ⟨rfl, ?_⟩
  simp [addItem, List.nodup_append]

/-- Counterexample to C6 as stated: when two items share the id "a", a
single `updateItem` rewrites the named field of both of them — the item at
index 1 changes as well, though the claim says every item other than "the
matching item" is unchanged. -/
theorem c6_counterexample :
    updateItem "a" (.setDescription "y") [⟨"a", "", 1, 0⟩, ⟨"a", "x", 2, 3⟩] =
      [⟨"a", "y", 1, 0⟩, ⟨"a", "y", 2, 3⟩] ∧
    (updateItem "a" (.setDescription "y") [⟨"a", "", 1, 0⟩, ⟨"a", "x", 2, 3⟩])[0]? ≠
      ([⟨"a", "", 1, 0⟩, ⟨"a", "x", 2, 3⟩] : List InvoiceItem)[0]? ∧
    (updateItem "a" (.setDescription "y") [⟨"a", "", 1, 0⟩, ⟨"a", "x", 2, 3⟩])[1]? ≠
      ([⟨"a", "", 1, 0⟩, ⟨"a", "x", 2, 3⟩] : List InvoiceItem)[1]? := by
  refine ⟨?_, ?_, ?_⟩ <;> decide

/-- C6 (amended): `updateItem` preserves length and order, leaves every
item whose id does not match untouched, replaces the named field of every
item whose id matches (so exactly one item changes whenever ids are
unique), and the field update touches only the named field. -/
theorem c6_amended_update_frame (items : List InvoiceItem) (id : String) (u : ItemUpdate) :
    (updateItem id u items).length = items.length ∧
    (∀ i : ℕ, (updateItem id u items)[i]? =
      (items[i]?).map (fun item => if item.id = id then applyUpdate item u else item)) ∧
    (∀ (item : InvoiceItem) (v : String),
      applyUpdate item (.setId v) = { item with id := v } ∧
      applyUpdate item (.setDescription v) = { item with description := v }) ∧
    (∀ (item : InvoiceItem) (v : ℚ),
      applyUpdate item (.setQuantity v) = { item with quantity := v } ∧
      applyUpdate item (.setPrice v) = { item with price := v }) := by
  refine ⟨by simp [updateItem], ?_, fun item v => ⟨rfl, rfl⟩, fun item v => ⟨rfl, rfl⟩⟩
  intro i
  simp [updateItem]

/-- C7: loading with no stored record, or with a record that fails to
parse, yields the absent value (`null`); the mount effect then keeps the
documented defaults: first palette entry as paper color, a single empty
item with quantity 1 and price 0, today's date, empty note, no signature. -/
theorem c7_load_failure_defaults (restore : Json → InvoiceData) (today : String) :
    loadFromLocalStorage none = Json.null ∧
    (∀ s : String, jsonParse s = none → loadFromLocalStorage (some s) = Json.null) ∧
    stateAfterMount restore none today = defaultData today ∧
    (∀ s : String, jsonParse s = none →
      stateAfterMount restore (some s) today = defaultData today) ∧
    (PAPER_COLORS.map PaperColor.value)[0]? = some (defaultData today).paperColor ∧
    (defaultData today).items = [{ id := "1", description := "", quantity := 1, price := 0 }] ∧
    (defaultData today).date = today ∧
    (defaultData today).note = "" ∧
    (defaultData today).signature = none := by
  have hload : ∀ s : String, jsonParse s = none →
      loadFromLocalStorage (some s) = Json.null := by
    intro s h
    unfold loadFromLocalStorage
    by_cases hs : s = "" <;> simp [hs, h]
  refine ⟨rfl, hload, rfl, ?_, rfl, rfl, rfl, rfl, rfl⟩
  intro s h
  simp [stateAfterMount, hload s h, truthy]

/-! ## Digit-level lemmas for the serialization round trip -/

/-- A digit character is none of the structural characters. -/
theorem isDigit_ne_of (c d : Char) (h : c.isDigit = true) (hd : d.isDigit = false) :
    c ≠ d := by
  intro heq
  subst heq
  rw [h] at hd
  simp at hd

/-- A digit character is not whitespace. -/
theorem isDigit_not_ws (c : Char) (h : c.isDigit = true) : isWsChar c = false := by
  cases hw : isWsChar c
  · rfl
  · exfalso
    have hw' : c = ' ' ∨ c = '\t' ∨ c = '\n' ∨ c = '\r' ∨ c = '\x0c' ∨ c = '\x0b' := by
      simpa [isWsChar] using hw
    rcases hw' with rfl | rfl | rfl | rfl | rfl | rfl <;> simp at h

/-- A delimiter-headed rest is not digit-headed. -/
theorem DelimOk.noDigitHead {rest : List Char} (h : DelimOk rest) : NoDigitHead rest := by
  cases rest with
  | nil => trivial
  | cons c r => exact h.1

/-- `skipWs` does not move past a non-whitespace head. -/
theorem skipWs_cons (c : Char) (r : List Char) (h : isWsChar c = false) :
    skipWs (c :: r) = c :: r := by
  simp [skipWs, h]

/-- `takeDigits` consumes exactly a digit block followed by a non-digit. -/
theorem takeDigits_append (ds rest : List Char) (v n : ℕ)
    (hds : ∀ c ∈ ds, c.isDigit = true) (hrest : NoDigitHead rest) :
    takeDigits (ds ++ rest) v n =
      (ds.foldl (fun a c => 10 * a + (c.toNat - 48)) v, n + ds.length, rest) := by
  induction ds generalizing v n with
  | nil =>
    cases rest with
    | nil => rfl
    | cons c cs =>
      simp only [List.nil_append, takeDigits]
      rw [if_neg]
      · simp
      · have hc : c.isDigit = false := hrest
        simp [hc]
  | cons d ds ih =>
    have hd : d.isDigit = true := hds d (List.mem_cons_self d ds)
    simp only [List.cons_append, takeDigits, hd, if_true, List.append_eq]
    rw [ih _ _ (fun c hc => hds c (List.mem_cons_of_mem d hc))]
    have : n + 1 + ds.length = n + (ds.length + 1) := by omega
    rw [this]
    rfl

/-- Folding digits from an arbitrary accumulator. -/
theorem foldl_digits_acc (ds : List Char) (v : ℕ) :
    ds.foldl (fun a c => 10 * a + (c.toNat - 48)) v =
      v * 10 ^ ds.length + ds.foldl (fun a c => 10 * a + (c.toNat - 48)) 0 := by
  induction ds generalizing v with
  | nil => simp
  | cons d ds ih =>
    rw [List.foldl_cons, List.foldl_cons, ih, ih (10 * 0 + (d.toNat - 48))]
    simp [List.length_cons, pow_succ]
    ring

/-- `Nat.digitChar` of a decimal digit is a digit character. -/
theorem digitChar_isDigit (d : ℕ) (h : d < 10) : (Nat.digitChar d).isDigit = true := by
  interval_cases d <;> decide

/-- `Nat.digitChar` inverts to its value. -/
theorem digitChar_val (d : ℕ) (h : d < 10) : (Nat.digitChar d).toNat - 48 = d := by
  interval_cases d <;> decide

/-- `Nat.digitChar` of a hex digit is a hex digit character. -/
theorem digitChar_isHex (d : ℕ) (h : d < 16) : isHexChar (Nat.digitChar d) = true := by
  interval_cases d <;> decide

/-- `hexCharValue` inverts `Nat.digitChar` on hex digits. -/
theorem hexCharValue_digitChar (d : ℕ) (h : d < 16) :
    hexCharValue (Nat.digitChar d) = d := by
  interval_cases d <;> decide

/-- The decimal rendering of `n` is never empty. -/
theorem natToChars_ne_nil (m : ℕ) : natToChars m ≠ [] := by
  unfold natToChars
  split
  · simp
  · simp_all [Nat.digits_ne_nil_iff_ne_zero]

/-- The decimal rendering of `n` consists of digit characters. -/
theorem natToChars_digits (m : ℕ) : ∀ c ∈ natToChars m, c.isDigit = true := by
  unfold natToChars
  split
  · intro c hc
    simp only [List.mem_singleton] at hc
    subst hc
    decide
  · intro c hc
    simp only [List.mem_reverse, List.mem_map] at hc
    obtain ⟨d, hd, rfl⟩ := hc
    exact digitChar_isDigit d (Nat.digits_lt_base (by norm_num) hd)

/-- Folding the reversed digit characters of a digit list recovers
`Nat.ofDigits`. -/
theorem foldl_digits_rev (L : List ℕ) (hL : ∀ d ∈ L, d < 10) (v : ℕ) :
    ((L.map Nat.digitChar).reverse).foldl (fun a c => 10 * a + (c.toNat - 48)) v =
      v * 10 ^ L.length + Nat.ofDigits 10 L := by
  induction L generalizing v with
  | nil => simp
  | cons d L ih =>
    rw [List.map_cons, List.reverse_cons, List.foldl_append,
      ih (fun x hx => hL x (List.mem_cons_of_mem d hx)) v]
    simp only [List.foldl_cons, List.foldl_nil, List.length_cons, Nat.ofDigits_cons]
    rw [digitChar_val d (hL d (List.mem_cons_self d L)), pow_succ]
    ring

/-- Parsing the decimal rendering of `m` recovers `m`. -/
theorem foldl_natToChars (m : ℕ) :
    (natToChars m).foldl (fun a c => 10 * a + (c.toNat - 48)) 0 = m := by
  unfold natToChars
  split
  · next h => simp [h]
  · rw [foldl_digits_rev _ (fun d hd => Nat.digits_lt_base (by norm_num) hd) 0,
      Nat.ofDigits_digits]
    simp

/-- `padDigits` always produces exactly `e` characters. -/
theorem padDigits_length (e : ℕ) : ∀ m, (padDigits e m).length = e := by
  induction e with
  | zero => intro m; rfl
  | succ e ih => intro m; simp [padDigits, ih]

/-- `padDigits` produces digit characters. -/
theorem padDigits_digits (e : ℕ) : ∀ m, ∀ c ∈ padDigits e m, c.isDigit = true := by
  induction e with
  | zero => intro m c hc; simp [padDigits] at hc
  | succ e ih =>
    intro m c hc
    simp only [padDigits, List.mem_append, List.mem_singleton] at hc
    rcases hc with hc | rfl
    · exact ih (m / 10) c hc
    · exact digitChar_isDigit (m % 10) (Nat.mod_lt m (by norm_num))

/-- Parsing the zero-padded rendering of `m < 10 ^ e` recovers `m`. -/
theorem foldl_padDigits (e : ℕ) : ∀ m v, m < 10 ^ e →
    (padDigits e m).foldl (fun a c => 10 * a + (c.toNat - 48)) v = v * 10 ^ e + m := by
  induction e with
  | zero =>
    intro m v h
    simp only [pow_zero, Nat.lt_one_iff] at h
    simp [padDigits, h]
  | succ e ih =>
    intro m v h
    have hdiv : m / 10 < 10 ^ e := by
      rw [Nat.div_lt_iff_lt_mul (by norm_num : (0:ℕ) < 10)]
      calc m < 10 ^ (e + 1) := h
      _ = 10 ^ e * 10 := by rw [pow_succ]
    rw [padDigits, List.foldl_append, ih (m / 10) v hdiv]
    simp only [List.foldl_cons, List.foldl_nil]
    rw [digitChar_val (m % 10) (Nat.mod_lt m (by norm_num))]
    have hm := Nat.div_add_mod m 10
    rw [pow_succ, ← mul_assoc]
    generalize v * 10 ^ e = a
    omega

/-- Witness for C7 at the unparseable stored payload `"garbage"`. -/
theorem c7_load_failure_defaults_witness :
    jsonParse "garbage" = none ∧
    loadFromLocalStorage (some "garbage") = Json.null ∧
    stateAfterMount (fun _ => defaultData "w") (some "garbage") "2026-02-03" =
      defaultData "2026-02-03" :=
  ⟨rfl,
   (c7_load_failure_defaults (fun _ => defaultData "w") "2026-02-03").2.1 "garbage" rfl,
   (c7_load_failure_defaults (fun _ => defaultData "w") "2026-02-03").2.2.2.1 "garbage" rfl⟩

/-! ## Number serialization round trip -/

/-- `stripZeros` preserves the denoted decimal value. -/
theorem stripZeros_val (e : ℕ) : ∀ n : ℕ,
    (((stripZeros n e).1 : ℚ)) / 10 ^ (stripZeros n e).2 = (n : ℚ) / 10 ^ e := by
  induction e with
  | zero => intro n; rfl
  | succ e ih =>
    intro n
    by_cases h : n % 10 = 0
    · have h10 : (10 : ℕ) ∣ n := Nat.dvd_of_mod_eq_zero h
      have hdiv : ((n / 10 : ℕ) : ℚ) = (n : ℚ) / 10 := Nat.cast_div h10 (by norm_num)
      have hstep : stripZeros n (e + 1) = stripZeros (n / 10) e := by
        simp [stripZeros, h]
      rw [hstep, ih (n / 10), hdiv, pow_succ]
      ring
    · have hstep : stripZeros n (e + 1) = (n, e + 1) := by
        simp [stripZeros, h]
      rw [hstep]

/-- The denominator of a decimal fraction divides the scaling power. -/
theorem den_div_pow_dvd (m k : ℕ) : ((m : ℚ) / 10 ^ k).den ∣ 10 ^ k := by
  have h : ((m : ℚ) / 10 ^ k) = Rat.divInt (m : ℤ) ((10 ^ k : ℕ) : ℤ) := by
    rw [Rat.divInt_eq_div]
    push_cast
    ring
  have h2 := Rat.den_dvd (m : ℤ) ((10 ^ k : ℕ) : ℤ)
  rw [← h] at h2
  exact_mod_cast h2

/-- A divisor of a power of ten divides the power of ten with itself as
exponent. -/
theorem dvd_ten_pow_self (d k : ℕ) (h : d ∣ 10 ^ k) : d ∣ 10 ^ d := by
  have h10 : (10 : ℕ) = 2 * 5 := by norm_num
  rw [h10, mul_pow] at h
  obtain ⟨a, b, ha, hb, rfl⟩ := Nat.dvd_mul.mp h
  obtain ⟨i, hi, rfl⟩ := (Nat.dvd_prime_pow Nat.prime_two).mp ha
  obtain ⟨j, hj, rfl⟩ := (Nat.dvd_prime_pow (by norm_num : Nat.Prime 5)).mp hb
  rw [h10, mul_pow]
  have h2 : (0 : ℕ) < 2 ^ i := pow_pos (by norm_num) i
  have h5 : (0 : ℕ) < 5 ^ j := pow_pos (by norm_num) j
  have hij2 : i < 2 ^ i * 5 ^ j := by
    have hlt : i < 2 ^ i := Nat.lt_two_pow i
    nlinarith
  have hij5 : j < 2 ^ i * 5 ^ j := by
    have hlt : j < 5 ^ j := Nat.lt_pow_self (by norm_num) j
    nlinarith
  exact mul_dvd_mul (pow_dvd_pow 2 (by omega)) (pow_dvd_pow 5 (by omega))

/-- A non-negative decimal is non-negative. -/
theorem IsNNDec.nonneg {q : ℚ} (h : IsNNDec q) : 0 ≤ q := by
  obtain ⟨m, e, rfl⟩ := h
  positivity

/-- `printNumNN` of a non-negative decimal is `printDec n e` for a scaled
representation `n / 10 ^ e` of the number. -/
theorem printNumNN_spec (q : ℚ) (hq : IsNNDec q) :
    ∃ n e : ℕ, printNumNN q = printDec n e ∧ ((n : ℚ) / 10 ^ e = q) := by
  obtain ⟨m, k, hmk⟩ := hq
  have hdvd : q.den ∣ 10 ^ q.den := dvd_ten_pow_self q.den k (hmk ▸ den_div_pow_dvd m k)
  have hq0 : 0 ≤ q := by rw [hmk]; positivity
  have hd : (q.den : ℚ) ≠ 0 := Nat.cast_ne_zero.mpr q.den_pos.ne'
  have hP : (10 : ℚ) ^ q.den ≠ 0 := by positivity
  refine ⟨(stripZeros (q.num.toNat * (10 ^ q.den / q.den)) q.den).1,
          (stripZeros (q.num.toNat * (10 ^ q.den / q.den)) q.den).2, rfl, ?_⟩
  rw [stripZeros_val]
  have h1 : (q.num.toNat : ℤ) = q.num := Int.toNat_of_nonneg (Rat.num_nonneg.mpr hq0)
  have hnum : ((q.num.toNat : ℕ) : ℚ) = (q.num : ℚ) := by exact_mod_cast h1
  have hcast : ((10 ^ q.den / q.den : ℕ) : ℚ) = (10 : ℚ) ^ q.den / (q.den : ℚ) := by
    rw [Nat.cast_div hdvd hd]
    push_cast
    ring
  have hmul : ((q.num.toNat * (10 ^ q.den / q.den) : ℕ) : ℚ) =
      (q.num : ℚ) * ((10 : ℚ) ^ q.den / (q.den : ℚ)) := by
    rw [Nat.cast_mul, hnum, hcast]
  rw [hmul]
  have hnum_eq : (q.num : ℚ) = q * (q.den : ℚ) := (div_eq_iff hd).mp (Rat.num_div_den q)
  field_simp
  rw [hnum_eq]
  ring

/-- `parseFrac` at a delimiter: no fraction part. -/
theorem parseFrac_delim (i : ℕ) (rest : List Char) (h : DelimOk rest) :
    parseFrac i rest = some ((i : ℚ), rest) := by
  cases rest with
  | nil => rfl
  | cons c r =>
    have hne : c ≠ '.' := h.2.1
    simp [parseFrac, hne]

/-- `parseExp` at a delimiter: no exponent part. -/
theorem parseExp_delim (m : ℚ) (rest : List Char) (h : DelimOk rest) :
    parseExp m rest = some (m, rest) := by
  cases rest with
  | nil => rfl
  | cons c r =>
    have he : ¬ (c = 'e' ∨ c = 'E') := by
      rintro (rfl | rfl)
      · exact h.2.2.1 rfl
      · exact h.2.2.2 rfl
    simp [parseExp, he]

/-- The decimal rendering starts with a digit character. -/
theorem natToChars_head (m : ℕ) :
    ∃ c t, natToChars m = c :: t ∧ c.isDigit = true := by
  cases h : natToChars m with
  | nil => exact absurd h (natToChars_ne_nil m)
  | cons c t => exact ⟨c, t, rfl, natToChars_digits m c (h ▸ List.mem_cons_self c t)⟩

/-- Parsing the printed decimal `n / 10 ^ e` recovers its value and leaves
the delimiter-headed rest alone. -/
theorem jsonParseNum_printDec (n e : ℕ) (rest : List Char) (hrest : DelimOk rest) :
    jsonParseNum (printDec n e ++ rest) = some ((n : ℚ) / 10 ^ e, rest) := by
  cases e with
  | zero =>
    obtain ⟨c, t, hct, hcd⟩ := natToChars_head n
    have hcne : c ≠ '-' := isDigit_ne_of c '-' hcd (by decide)
    have hsplit : printDec n 0 ++ rest = c :: (t ++ rest) := by simp [printDec, hct]
    have hjoin : c :: (t ++ rest) = natToChars n ++ rest := by simp [hct]
    rw [hsplit]
    simp only [jsonParseNum, hcne, if_false, ite_false, if_neg hcne]
    rw [hjoin, takeDigits_append (natToChars n) rest 0 0 (natToChars_digits n)
      hrest.noDigitHead, foldl_natToChars]
    have hni : ¬ (0 + (natToChars n).length = 0) := by
      have := List.length_pos.mpr (natToChars_ne_nil n)
      omega
    simp only [if_neg hni]
    rw [parseFrac_delim n rest hrest]
    simp [parseExp_delim (n : ℚ) rest hrest]
  | succ k =>
    obtain ⟨c, t, hct, hcd⟩ := natToChars_head (n / 10 ^ (k + 1))
    have hcne : c ≠ '-' := isDigit_ne_of c '-' hcd (by decide)
    have hsplit : printDec n (k + 1) ++ rest =
        c :: (t ++ '.' :: (padDigits (k + 1) (n % 10 ^ (k + 1)) ++ rest)) := by
      simp [printDec, hct]
    have hjoin : c :: (t ++ '.' :: (padDigits (k + 1) (n % 10 ^ (k + 1)) ++ rest)) =
        natToChars (n / 10 ^ (k + 1)) ++
          ('.' :: (padDigits (k + 1) (n % 10 ^ (k + 1)) ++ rest)) := by
      simp [hct]
    rw [hsplit]
    simp only [jsonParseNum, hcne, if_false, ite_false, if_neg hcne]
    have hnd : NoDigitHead ('.' :: (padDigits (k + 1) (n % 10 ^ (k + 1)) ++ rest)) := by
      show ('.' : Char).isDigit = false
      decide
    rw [hjoin, takeDigits_append _ _ 0 0 (natToChars_digits _) hnd]
    rw [foldl_natToChars]
    have hni : ¬ (0 + (natToChars (n / 10 ^ (k + 1))).length = 0) := by
      have := List.length_pos.mpr (natToChars_ne_nil (n / 10 ^ (k + 1)))
      omega
    simp only [if_neg hni]
    have hmod : n % 10 ^ (k + 1) < 10 ^ (k + 1) :=
      Nat.mod_lt n (pow_pos (by norm_num) (k + 1))
    have hfrac : parseFrac (n / 10 ^ (k + 1))
        ('.' :: (padDigits (k + 1) (n % 10 ^ (k + 1)) ++ rest)) =
        some (((n / 10 ^ (k + 1) : ℕ) : ℚ) +
          ((n % 10 ^ (k + 1) : ℕ) : ℚ) / 10 ^ (k + 1), rest) := by
      simp only [parseFrac, if_pos rfl]
      rw [takeDigits_append _ _ 0 0 (padDigits_digits (k + 1) _) hrest.noDigitHead]
      rw [foldl_padDigits (k + 1) _ 0 hmod]
      have hlen : ¬ (0 + (padDigits (k + 1) (n % 10 ^ (k + 1))).length = 0) := by
        rw [padDigits_length]
        omega
      simp only [if_neg hlen]
      rw [padDigits_length]
      simp
    rw [hfrac]
    have hdm := Nat.div_add_mod n (10 ^ (k + 1))
    have hkey : ((n / 10 ^ (k + 1) : ℕ) : ℚ) +
        ((n % 10 ^ (k + 1) : ℕ) : ℚ) / 10 ^ (k + 1) = (n : ℚ) / 10 ^ (k + 1) := by
      have hcast : (10 : ℚ) ^ (k + 1) * ((n / 10 ^ (k + 1) : ℕ) : ℚ) +
          ((n % 10 ^ (k + 1) : ℕ) : ℚ) = (n : ℚ) := by
        exact_mod_cast hdm
      have hPne : ((10 : ℚ) ^ (k + 1)) ≠ 0 := by positivity
      field_simp
      linarith [hcast]
    simp [hkey]
    exact parseExp_delim _ rest hrest

/-! ## String serialization round trip -/

/-- Undoing `escapeChar` one character at a time recovers the string body
up to the closing quote. -/
theorem parseStrChars_escape (cs : List Char) (rest : List Char) :
    parseStrChars (cs.flatMap escapeChar ++ '"' :: rest) = some (cs, rest) := by
  induction cs with
  | nil =>
    rw [List.flatMap_nil, List.nil_append, parseStrChars.eq_def]
    simp
  | cons c cs ih =>
    rw [List.flatMap_cons, List.append_assoc]
    by_cases h1 : c = '"'
    · subst h1
      rw [show escapeChar '"' = ['\\', '"'] from rfl]
      simp only [List.cons_append, List.nil_append]
      rw [parseStrChars.eq_def]
      simp [ih]
    · by_cases h2 : c = '\\'
      · subst h2
        rw [show escapeChar '\\' = ['\\', '\\'] from rfl]
        simp only [List.cons_append, List.nil_append]
        rw [parseStrChars.eq_def]
        simp [ih]
      · by_cases h3 : c.toNat < 32
        · by_cases hb : c = '\x08'
          · subst hb
            rw [show escapeChar '\x08' = ['\\', 'b'] from rfl]
            simp only [List.cons_append, List.nil_append]
            rw [parseStrChars.eq_def]
            simp [ih]
          · by_cases ht : c = '\t'
            · subst ht
              rw [show escapeChar '\t' = ['\\', 't'] from rfl]
              simp only [List.cons_append, List.nil_append]
              rw [parseStrChars.eq_def]
              simp [ih]
            · by_cases hn : c = '\n'
              · subst hn
                rw [show escapeChar '\n' = ['\\', 'n'] from rfl]
                simp only [List.cons_append, List.nil_append]
                rw [parseStrChars.eq_def]
                simp [ih]
              · by_cases hf : c = '\x0c'
                · subst hf
                  rw [show escapeChar '\x0c' = ['\\', 'f'] from rfl]
                  simp only [List.cons_append, List.nil_append]
                  rw [parseStrChars.eq_def]
                  simp [ih]
                · by_cases hr : c = '\r'
                  · subst hr
                    rw [show escapeChar '\r' = ['\\', 'r'] from rfl]
                    simp only [List.cons_append, List.nil_append]
                    rw [parseStrChars.eq_def]
                    simp [ih]
                  · have hesc : escapeChar c = ['\\', 'u', '0', '0',
                      Nat.digitChar (c.toNat / 16), Nat.digitChar (c.toNat % 16)] := by
                      simp [escapeChar, h1, h2, h3, hb, ht, hn, hf, hr]
                    have hx1 : isHexChar (Nat.digitChar (c.toNat / 16)) = true :=
                      digitChar_isHex (c.toNat / 16) (by omega)
                    have hx2 : isHexChar (Nat.digitChar (c.toNat % 16)) = true :=
                      digitChar_isHex (c.toNat % 16) (Nat.mod_lt c.toNat (by norm_num))
                    have hv1 : hexCharValue (Nat.digitChar (c.toNat / 16)) = c.toNat / 16 :=
                      hexCharValue_digitChar (c.toNat / 16) (by omega)
                    have hv2 : hexCharValue (Nat.digitChar (c.toNat % 16)) = c.toNat % 16 :=
                      hexCharValue_digitChar (c.toNat % 16) (Nat.mod_lt c.toNat (by norm_num))
                    have hval : ((hexCharValue '0' * 16 + hexCharValue '0') * 16 +
                        c.toNat / 16) * 16 + c.toNat % 16 = c.toNat := by
                      have hdm := Nat.div_add_mod c.toNat 16
                      simp only [show hexCharValue '0' = 0 from rfl]
                      omega
                    have hz : isHexChar '0' = true := by decide
                    rw [hesc]
                    simp only [List.cons_append, List.nil_append]
                    rw [parseStrChars.eq_def]
                    simp [hx1, hx2, hz, hv1, hv2, hval, Char.ofNat_toNat, ih]
        · have hesc : escapeChar c = [c] := by
            simp [escapeChar, h1, h2, h3]
          rw [hesc]
          simp only [List.cons_append, List.nil_append]
          rw [parseStrChars.eq_def]
          simp [h1, h2, h3, ih]

/-! ## Value-level round trip -/

/-- Rebuilding a string from its character data is the identity. -/
theorem string_mk_data (s : String) : String.mk s.data = s := rfl

/-- A printed decimal starts with a digit character. -/
theorem printDec_head (n e : ℕ) :
    ∃ c t, printDec n e = c :: t ∧ c.isDigit = true := by
  cases e with
  | zero =>
    obtain ⟨c, t, hct, hcd⟩ := natToChars_head n
    exact ⟨c, t, by simp [printDec, hct], hcd⟩
  | succ k =>
    obtain ⟨c, t, hct, hcd⟩ := natToChars_head (n / 10 ^ (k + 1))
    exact ⟨c, t ++ '.' :: padDigits (k + 1) (n % 10 ^ (k + 1)), by simp [printDec, hct], hcd⟩

/-- The serialized form of a well-formed value starts with a character
that is not whitespace and none of the closing delimiters. -/
theorem printJson_head (j : Json) (hw : WfJson j) :
    ∃ c t, printJson j = c :: t ∧ isWsChar c = false ∧ c ≠ ']' ∧ c ≠ '}' ∧ c ≠ ',' := by
  cases j with
  | null => exact ⟨'n', ['u', 'l', 'l'], rfl, by decide, by decide, by decide, by decide⟩
  | bool b =>
    cases b
    · exact ⟨'f', ['a', 'l', 's', 'e'], rfl, by decide, by decide, by decide, by decide⟩
    · exact ⟨'t', ['r', 'u', 'e'], rfl, by decide, by decide, by decide, by decide⟩
  | num q =>
    cases hw with
    | num hq =>
      obtain ⟨n, e, hpr, hval⟩ := printNumNN_spec q hq
      obtain ⟨c, t, hct, hcd⟩ := printDec_head n e
      refine ⟨c, t, ?_, isDigit_not_ws c hcd, isDigit_ne_of c ']' hcd (by decide),
        isDigit_ne_of c '}' hcd (by decide), isDigit_ne_of c ',' hcd (by decide)⟩
      show printNum q = c :: t
      rw [printNum, if_neg (not_lt.mpr hq.nonneg), hpr, hct]
  | str s =>
    exact ⟨'"', s.data.flatMap escapeChar ++ ['"'], rfl, by decide, by decide, by decide,
      by decide⟩
  | arr xs =>
    exact ⟨'[', printElems xs ++ [']'], rfl, by decide, by decide, by decide, by decide⟩
  | obj ms =>
    exact ⟨'{', printMembers ms ++ ['}'], rfl, by decide, by decide, by decide, by decide⟩

/-- `parseVal` at a digit character parses a number. -/
theorem parseVal_digit (f : ℕ) (c : Char) (r : List Char) (hc : c.isDigit = true) :
    parseVal (f + 1) (c :: r) =
      (jsonParseNum (c :: r)).map (fun p => (Json.num p.1, p.2)) := by
  have hn : ¬ c = 'n' := isDigit_ne_of c 'n' hc (by decide)
  have ht : ¬ c = 't' := isDigit_ne_of c 't' hc (by decide)
  have hf : ¬ c = 'f' := isDigit_ne_of c 'f' hc (by decide)
  have hq : ¬ c = '"' := isDigit_ne_of c '"' hc (by decide)
  have hl : ¬ c = '[' := isDigit_ne_of c '[' hc (by decide)
  have hb : ¬ c = '{' := isDigit_ne_of c '{' hc (by decide)
  have hws : ¬ (c = ' ' ∨ c = '\t' ∨ c = '\n' ∨ c = '\r' ∨ c = '\x0c' ∨ c = '\x0b') := by
    intro h
    rcases h with rfl | rfl | rfl | rfl | rfl | rfl <;> simp at hc
  rw [parseVal.eq_def]
  simp only [skipWs, isWsChar]
  simp [hws, hn, ht, hf, hq, hl, hb, hc]

/-- `parseVal` after `[` with a non-`]`, non-whitespace head parses the
elements. -/
theorem parseVal_arr_dispatch (f : ℕ) (c1 : Char) (R : List Char)
    (h : isWsChar c1 = false) (hne : ¬ c1 = ']') :
    parseVal (f + 1) ('[' :: c1 :: R) =
      (parseElems f (c1 :: R)).map (fun p => (Json.arr p.1, p.2)) := by
  rw [parseVal.eq_def]
  simp only [skipWs, isWsChar]
  simp [h, hne, skipWs_cons]

/-- `parseVal` after `{` at a key quote parses the members. -/
theorem parseVal_obj_dispatch (f : ℕ) (R : List Char) :
    parseVal (f + 1) ('{' :: '"' :: R) =
      (parseMembers f ('"' :: R)).map (fun p => (Json.obj p.1, p.2)) := rfl

/-- `DelimOk` holds for the delimiters produced by the serializer. -/
theorem delimOk_comma (r : List Char) : DelimOk (',' :: r) :=
  ⟨by decide, by decide, by decide, by decide⟩

/-- `DelimOk` holds after a closing bracket. -/
theorem delimOk_rbracket (r : List Char) : DelimOk (']' :: r) :=
  ⟨by decide, by decide, by decide, by decide⟩

/-- `DelimOk` holds after a closing brace. -/
theorem delimOk_rbrace (r : List Char) : DelimOk ('}' :: r) :=
  ⟨by decide, by decide, by decide, by decide⟩

/-- One unfolding step of `parseElems` at positive fuel. -/
theorem parseElems_succ (g : ℕ) (cs : List Char) :
    parseElems (g + 1) cs =
      match parseVal g cs with
      | none => none
      | some (v, r) =>
        match skipWs r with
        | [] => none
        | c :: r1 =>
          if c = ',' then (parseElems g r1).map (fun p => (v :: p.1, p.2))
          else if c = ']' then some ([v], r1)
          else none := rfl

/-- One unfolding step of `parseMembers` at positive fuel. -/
theorem parseMembers_succ (g : ℕ) (cs : List Char) :
    parseMembers (g + 1) cs =
      match skipWs cs with
      | [] => none
      | c :: r =>
        if c = '"' then
          match parseStrChars r with
          | none => none
          | some (k, r1) =>
            match skipWs r1 with
            | [] => none
            | c1 :: r2 =>
              if c1 = ':' then
                match parseVal g r2 with
                | none => none
                | some (v, r3) =>
                  match skipWs r3 with
                  | [] => none
                  | c2 :: r4 =>
                    if c2 = ',' then
                      (parseMembers g r4).map (fun p => ((String.mk k, v) :: p.1, p.2))
                    else if c2 = '}' then some ([(String.mk k, v)], r4)
                    else none
              else none
        else none := rfl

/-- Parsing the printed elements of a non-empty array recovers them, up to
and including the closing bracket. -/
theorem parseElems_printElems (N : ℕ)
    (IH : ∀ j : Json, sizeOf j ≤ N → WfJson j → ∀ f rest, fuelJ j ≤ f → DelimOk rest →
      parseVal f (printJson j ++ rest) = some (j, rest)) :
    ∀ (xs : List Json) (x : Json), (∀ y ∈ x :: xs, sizeOf y ≤ N ∧ WfJson y) →
      ∀ (g : ℕ) (rest : List Char), fuelElems (x :: xs) ≤ g →
        parseElems g (printElems (x :: xs) ++ ']' :: rest) = some (x :: xs, rest) := by
  intro xs
  induction xs with
  | nil =>
    intro x hx g rest hg
    have hfx : 1 + fuelJ x + fuelElems [] ≤ g := hg
    have hfe : fuelElems ([] : List Json) = 0 := rfl
    obtain ⟨g', rfl⟩ : ∃ g', g = g' + 1 := ⟨g - 1, by omega⟩
    rw [parseElems_succ]
    have hE : printElems [x] ++ ']' :: rest = printJson x ++ ']' :: rest := rfl
    rw [hE, IH x (hx x (List.mem_cons_self x [])).1 (hx x (List.mem_cons_self x [])).2
      g' (']' :: rest) (by omega) (delimOk_rbracket rest)]
    simp [skipWs, isWsChar]
  | cons y xs' ihElems =>
    intro x hx g rest hg
    have hfx : 1 + fuelJ x + fuelElems (y :: xs') ≤ g := hg
    obtain ⟨g', rfl⟩ : ∃ g', g = g' + 1 := ⟨g - 1, by omega⟩
    rw [parseElems_succ]
    have hE : printElems (x :: y :: xs') ++ ']' :: rest =
        printJson x ++ (',' :: (printElems (y :: xs') ++ ']' :: rest)) := by
      show (printJson x ++ ',' :: printElems (y :: xs')) ++ ']' :: rest = _
      simp [List.append_assoc]
    rw [hE, IH x (hx x (List.mem_cons_self x _)).1 (hx x (List.mem_cons_self x _)).2
      g' (',' :: (printElems (y :: xs') ++ ']' :: rest)) (by omega) (delimOk_comma _)]
    have htail := ihElems y (fun z hz => hx z (List.mem_cons_of_mem x hz)) g' rest (by omega)
    simp [skipWs, isWsChar, htail]

/-- Parsing the printed members of a non-empty object recovers them, up to
and including the closing brace. -/
theorem parseMembers_printMembers (N : ℕ)
    (IH : ∀ j : Json, sizeOf j ≤ N → WfJson j → ∀ f rest, fuelJ j ≤ f → DelimOk rest →
      parseVal f (printJson j ++ rest) = some (j, rest)) :
    ∀ (ms : List (String × Json)) (k : String) (v : Json),
      (∀ p ∈ (k, v) :: ms, sizeOf p.2 ≤ N ∧ WfJson p.2) →
      ∀ (g : ℕ) (rest : List Char), fuelMembers ((k, v) :: ms) ≤ g →
        parseMembers g (printMembers ((k, v) :: ms) ++ '}' :: rest) =
          some ((k, v) :: ms, rest) := by
  intro ms
  induction ms with
  | nil =>
    intro k v hm g rest hg
    have hfv : 1 + fuelJ v + fuelMembers [] ≤ g := hg
    obtain ⟨g', rfl⟩ : ∃ g', g = g' + 1 := ⟨g - 1, by omega⟩
    rw [parseMembers_succ]
    have hE : printMembers [(k, v)] ++ '}' :: rest =
        '"' :: (k.data.flatMap escapeChar ++ '"' :: (':' :: (printJson v ++ '}' :: rest))) := by
      show (printStr k ++ ':' :: printJson v) ++ '}' :: rest = _
      simp [printStr, List.append_assoc]
    rw [hE]
    have hkey := parseStrChars_escape k.data (':' :: (printJson v ++ '}' :: rest))
    have hval := IH v ((hm (k, v) (List.mem_cons_self _ _)).1)
      ((hm (k, v) (List.mem_cons_self _ _)).2) g' ('}' :: rest) (by omega)
      (delimOk_rbrace rest)
    simp [hkey, hval, skipWs, isWsChar, string_mk_data]
  | cons m ms' ihMembers =>
    intro k v hm g rest hg
    have hfv : 1 + fuelJ v + fuelMembers (m :: ms') ≤ g := hg
    obtain ⟨g', rfl⟩ : ∃ g', g = g' + 1 := ⟨g - 1, by omega⟩
    obtain ⟨k2, v2⟩ := m
    rw [parseMembers_succ]
    have hE : printMembers ((k, v) :: (k2, v2) :: ms') ++ '}' :: rest =
        '"' :: (k.data.flatMap escapeChar ++ '"' ::
          (':' :: (printJson v ++ ',' :: (printMembers ((k2, v2) :: ms') ++ '}' :: rest)))) := by
      show (printStr k ++ ':' :: printJson v ++ ',' :: printMembers ((k2, v2) :: ms'))
          ++ '}' :: rest = _
      simp [printStr, List.append_assoc]
    rw [hE]
    have hkey := parseStrChars_escape k.data
      (':' :: (printJson v ++ ',' :: (printMembers ((k2, v2) :: ms') ++ '}' :: rest)))
    have hval := IH v ((hm (k, v) (List.mem_cons_self _ _)).1)
      ((hm (k, v) (List.mem_cons_self _ _)).2) g'
      (',' :: (printMembers ((k2, v2) :: ms') ++ '}' :: rest)) (by omega) (delimOk_comma _)
    have htail := ihMembers k2 v2 (fun p hp => hm p (List.mem_cons_of_mem _ hp)) g' rest (by omega)
    simp [hkey, hval, skipWs, isWsChar, htail, string_mk_data]

/-- Every JSON value has positive size. -/
theorem json_sizeOf_pos (j : Json) : 1 ≤ sizeOf j := by
  cases j <;> simp

/-- Every JSON value needs positive fuel. -/
theorem fuelJ_pos (j : Json) : 1 ≤ fuelJ j := by
  cases j with
  | null => exact le_refl 1
  | bool b => exact le_refl 1
  | num q => exact le_refl 1
  | str s => exact le_refl 1
  | arr xs =>
    have h : fuelJ (Json.arr xs) = 1 + fuelElems xs := rfl
    omega
  | obj ms =>
    have h : fuelJ (Json.obj ms) = 1 + fuelMembers ms := rfl
    omega

/-- Parsing the serialization of any well-formed value, at sufficient
fuel, recovers exactly the value and the rest of the input. -/
theorem parseVal_printJson : ∀ (N : ℕ) (j : Json), sizeOf j ≤ N → WfJson j →
    ∀ (f : ℕ) (rest : List Char), fuelJ j ≤ f → DelimOk rest →
      parseVal f (printJson j ++ rest) = some (j, rest) := by
  intro N
  induction N with
  | zero =>
    intro j hsz
    exact absurd hsz (by have := json_sizeOf_pos j; omega)
  | succ N IH =>
    intro j hsz hwf f rest hfuel hdelim
    have hf1 : 1 ≤ f := le_trans (fuelJ_pos j) hfuel
    obtain ⟨f', rfl⟩ : ∃ f', f = f' + 1 := ⟨f - 1, by omega⟩
    cases j with
    | null => exact rfl
    | bool b => cases b <;> exact rfl
    | str s =>
      have hEs : printJson (Json.str s) ++ rest =
          '"' :: (s.data.flatMap escapeChar ++ '"' :: rest) := by
        show ('"' :: s.data.flatMap escapeChar ++ ['"']) ++ rest = _
        simp [List.append_assoc]
      rw [hEs]
      have hred : parseVal (f' + 1) ('"' :: (s.data.flatMap escapeChar ++ '"' :: rest)) =
          (parseStrChars (s.data.flatMap escapeChar ++ '"' :: rest)).map
            (fun p => (Json.str (String.mk p.1), p.2)) := rfl
      rw [hred, parseStrChars_escape]
      simp [string_mk_data]
    | num q =>
      cases hwf with
      | num hq =>
        obtain ⟨n, e, hpr, hval⟩ := printNumNN_spec q hq
        obtain ⟨c, t, hct, hcd⟩ := printDec_head n e
        have hprint : printJson (Json.num q) = c :: t := by
          show printNum q = c :: t
          rw [printNum, if_neg (not_lt.mpr hq.nonneg), hpr, hct]
        have hjoin : (c :: t) ++ rest = c :: (t ++ rest) := rfl
        have hback : c :: (t ++ rest) = printDec n e ++ rest := by
          rw [hct]
          rfl
        rw [hprint, hjoin, parseVal_digit f' c (t ++ rest) hcd, hback,
          jsonParseNum_printDec n e rest hdelim]
        simp [hval]
    | arr xs =>
      cases hwf with
      | arr hall =>
        cases xs with
        | nil => exact rfl
        | cons x xs' =>
          have hsx : ∀ y ∈ x :: xs', sizeOf y ≤ N ∧ WfJson y := by
            intro y hy
            refine ⟨?_, hall y hy⟩
            have h1 := List.sizeOf_lt_of_mem hy
            have h2 : sizeOf (Json.arr (x :: xs')) = 1 + sizeOf (x :: xs') := by simp
            omega
          have hfe : fuelElems (x :: xs') ≤ f' := by
            have h : fuelJ (Json.arr (x :: xs')) = 1 + fuelElems (x :: xs') := rfl
            omega
          obtain ⟨c1, t1, hc1, hw1, hne1, hne2, hne3⟩ :=
            printJson_head x (hall x (List.mem_cons_self _ _))
          have hPE : ∃ T, printElems (x :: xs') = c1 :: T := by
            cases xs' with
            | nil =>
              refine ⟨t1, ?_⟩
              show printJson x = c1 :: t1
              exact hc1
            | cons y t =>
              refine ⟨t1 ++ ',' :: printElems (y :: t), ?_⟩
              show printJson x ++ ',' :: printElems (y :: t) = _
              rw [hc1]
              rfl
          obtain ⟨T, hT⟩ := hPE
          have hEq : printJson (Json.arr (x :: xs')) ++ rest =
              '[' :: c1 :: (T ++ ']' :: rest) := by
            show ('[' :: printElems (x :: xs') ++ [']']) ++ rest = _
            rw [hT]
            simp [List.append_assoc]
          have hfold : c1 :: (T ++ ']' :: rest) = printElems (x :: xs') ++ ']' :: rest := by
            rw [hT]
            rfl
          rw [hEq, parseVal_arr_dispatch f' c1 (T ++ ']' :: rest) hw1 hne1, hfold,
            parseElems_printElems N IH xs' x hsx f' rest hfe]
          rfl
    | obj ms =>
      cases hwf with
      | obj hall =>
        cases ms with
        | nil => exact rfl
        | cons m ms' =>
          obtain ⟨k, v⟩ := m
          have hsm : ∀ p ∈ (k, v) :: ms', sizeOf p.2 ≤ N ∧ WfJson p.2 := by
            intro p hp
            refine ⟨?_, hall p hp⟩
            have h1 := List.sizeOf_lt_of_mem hp
            have h2 : sizeOf (Json.obj ((k, v) :: ms')) = 1 + sizeOf ((k, v) :: ms') := by simp
            obtain ⟨a, b⟩ := p
            have h3 : sizeOf ((a, b) : String × Json) = 1 + sizeOf a + sizeOf b := rfl
            show sizeOf b ≤ N
            omega
          have hfm : fuelMembers ((k, v) :: ms') ≤ f' := by
            have h : fuelJ (Json.obj ((k, v) :: ms')) = 1 + fuelMembers ((k, v) :: ms') := rfl
            omega
          have hPM : ∃ W, printMembers ((k, v) :: ms') = '"' :: W := by
            cases ms' with
            | nil =>
              refine ⟨k.data.flatMap escapeChar ++ '"' :: ':' :: printJson v, ?_⟩
              show printStr k ++ ':' :: printJson v = _
              simp [printStr, List.append_assoc]
            | cons m2 t =>
              obtain ⟨k2, v2⟩ := m2
              refine ⟨k.data.flatMap escapeChar ++ '"' :: ':' :: (printJson v ++
                ',' :: printMembers ((k2, v2) :: t)), ?_⟩
              show printStr k ++ ':' :: printJson v ++ ',' :: printMembers ((k2, v2) :: t) = _
              simp [printStr, List.append_assoc]
          obtain ⟨W, hW⟩ := hPM
          have hEq : printJson (Json.obj ((k, v) :: ms')) ++ rest =
              '{' :: '"' :: (W ++ '}' :: rest) := by
            show ('{' :: printMembers ((k, v) :: ms') ++ ['}']) ++ rest = _
            rw [hW]
            simp [List.append_assoc]
          have hfold : ('"' : Char) :: (W ++ '}' :: rest) =
              printMembers ((k, v) :: ms') ++ '}' :: rest := by
            rw [hW]
            rfl
          rw [hEq, parseVal_obj_dispatch f' (W ++ '}' :: rest), hfold,
            parseMembers_printMembers N IH ms' k v hsm f' rest hfm]
          rfl

/-- A printed number is never empty. -/
theorem printNum_length_pos (q : ℚ) : 1 ≤ (printNum q).length := by
  rw [printNum]
  split
  · simp
  · have hdec : printNumNN q =
        printDec (stripZeros (q.num.toNat * (10 ^ q.den / q.den)) q.den).1
          (stripZeros (q.num.toNat * (10 ^ q.den / q.den)) q.den).2 := rfl
    obtain ⟨c, t, hct, _⟩ := printDec_head
      (stripZeros (q.num.toNat * (10 ^ q.den / q.den)) q.den).1
      (stripZeros (q.num.toNat * (10 ^ q.den / q.den)) q.den).2
    rw [hdec, hct]
    simp

/-- The fuel the top-level parser grants dominates the fuel the printed
value needs. -/
theorem fuelJ_le_twice_length : ∀ (N : ℕ) (j : Json), sizeOf j ≤ N →
    fuelJ j ≤ 2 * (printJson j).length := by
  intro N
  induction N with
  | zero =>
    intro j hsz
    exact absurd hsz (by have := json_sizeOf_pos j; omega)
  | succ N IH =>
    intro j hsz
    cases j with
    | null =>
      have h1 : fuelJ Json.null = 1 := rfl
      have h2 : (printJson Json.null).length = 4 := rfl
      omega
    | bool b =>
      cases b
      · have h1 : fuelJ (Json.bool false) = 1 := rfl
        have h2 : (printJson (Json.bool false)).length = 5 := rfl
        omega
      · have h1 : fuelJ (Json.bool true) = 1 := rfl
        have h2 : (printJson (Json.bool true)).length = 4 := rfl
        omega
    | num q =>
      have h1 : fuelJ (Json.num q) = 1 := rfl
      have h2 : (printJson (Json.num q)).length = (printNum q).length := rfl
      have h3 := printNum_length_pos q
      omega
    | str s =>
      have h1 : fuelJ (Json.str s) = 1 := rfl
      have h2 : (printJson (Json.str s)).length =
          (s.data.flatMap escapeChar).length + 2 := by
        show ('"' :: s.data.flatMap escapeChar ++ ['"']).length = _
        simp
      omega
    | arr xs =>
      have hsize : ∀ y ∈ xs, sizeOf y ≤ N := by
        intro y hy
        have h1 := List.sizeOf_lt_of_mem hy
        have h2 : sizeOf (Json.arr xs) = 1 + sizeOf xs := by simp
        omega
      have hElems : fuelElems xs ≤ 2 * (printElems xs).length + 1 := by
        clear hsz
        induction xs with
        | nil =>
          have h1 : fuelElems ([] : List Json) = 0 := rfl
          omega
        | cons y t iht =>
          have hy : fuelJ y ≤ 2 * (printJson y).length :=
            IH y (hsize y (List.mem_cons_self _ _))
          cases t with
          | nil =>
            have h1 : fuelElems [y] = 1 + fuelJ y + fuelElems [] := rfl
            have h2 : fuelElems ([] : List Json) = 0 := rfl
            have h3 : (printElems [y]).length = (printJson y).length := rfl
            omega
          | cons z t2 =>
            have h1 : fuelElems (y :: z :: t2) = 1 + fuelJ y + fuelElems (z :: t2) := rfl
            have h2 : printElems (y :: z :: t2) = printJson y ++ ',' :: printElems (z :: t2) := rfl
            have h4 := iht (fun w hw => hsize w (List.mem_cons_of_mem _ hw))
            have h5 : (printElems (y :: z :: t2)).length =
                (printJson y).length + 1 + (printElems (z :: t2)).length := by
              rw [h2]
              simp
              omega
            omega
      have h1 : fuelJ (Json.arr xs) = 1 + fuelElems xs := rfl
      have h2 : (printJson (Json.arr xs)).length = (printElems xs).length + 2 := by
        show ('[' :: printElems xs ++ [']']).length = _
        simp
      omega
    | obj ms =>
      have hsize : ∀ p ∈ ms, sizeOf p.2 ≤ N := by
        intro p hp
        have h1 := List.sizeOf_lt_of_mem hp
        have h2 : sizeOf (Json.obj ms) = 1 + sizeOf ms := by simp
        obtain ⟨a, b⟩ := p
        have h3 : sizeOf ((a, b) : String × Json) = 1 + sizeOf a + sizeOf b := rfl
        show sizeOf b ≤ N
        omega
      have hMembers : fuelMembers ms ≤ 2 * (printMembers ms).length + 1 := by
        clear hsz
        induction ms with
        | nil =>
          have h1 : fuelMembers ([] : List (String × Json)) = 0 := rfl
          omega
        | cons m t iht =>
          obtain ⟨k, v⟩ := m
          have hv : fuelJ v ≤ 2 * (printJson v).length :=
            IH v (hsize (k, v) (List.mem_cons_self _ _))
          have hk : 2 ≤ (printStr k).length := by
            show 2 ≤ ('"' :: k.data.flatMap escapeChar ++ ['"']).length
            simp
          cases t with
          | nil =>
            have h1 : fuelMembers [(k, v)] = 1 + fuelJ v + fuelMembers [] := rfl
            have h2 : fuelMembers ([] : List (String × Json)) = 0 := rfl
            have h3 : printMembers [(k, v)] = printStr k ++ ':' :: printJson v := rfl
            have h5 : (printMembers [(k, v)]).length =
                (printStr k).length + 1 + (printJson v).length := by
              rw [h3]
              simp
              omega
            omega
          | cons m2 t2 =>
            obtain ⟨k2, v2⟩ := m2
            have h1 : fuelMembers ((k, v) :: (k2, v2) :: t2) =
                1 + fuelJ v + fuelMembers ((k2, v2) :: t2) := rfl
            have h3 : printMembers ((k, v) :: (k2, v2) :: t2) =
                printStr k ++ ':' :: printJson v ++ ',' :: printMembers ((k2, v2) :: t2) := rfl
            have h4 := iht (fun w hw => hsize w (List.mem_cons_of_mem _ hw))
            have h5 : (printMembers ((k, v) :: (k2, v2) :: t2)).length =
                (printStr k).length + 1 + (printJson v).length + 1 +
                  (printMembers ((k2, v2) :: t2)).length := by
              rw [h3]
              simp
              omega
            omega
      have h1 : fuelJ (Json.obj ms) = 1 + fuelMembers ms := rfl
      have h2 : (printJson (Json.obj ms)).length = (printMembers ms).length + 2 := by
        show ('{' :: printMembers ms ++ ['}']).length = _
        simp
      omega

/-- `JSON.parse` undoes `JSON.stringify` on well-formed values. -/
theorem jsonParse_stringify (j : Json) (hw : WfJson j) :
    jsonParse (jsonStringify j) = some j := by
  have hlen : (jsonStringify j).length = (printJson j).length := rfl
  have hfuel : fuelJ j ≤ 2 * (jsonStringify j).length + 2 := by
    have := fuelJ_le_twice_length (sizeOf j) j (le_refl _)
    omega
  have h := parseVal_printJson (sizeOf j) j (le_refl _) hw
    (2 * (jsonStringify j).length + 2) [] hfuel trivial
  rw [List.append_nil] at h
  unfold jsonParse
  rw [show (jsonStringify j).data = printJson j from rfl, h]
  rfl

/-- The encoded draft of a schema-conforming draft is well formed: every
number in it is a non-negative finite decimal. -/
theorem encodeInvoice_wf (d : InvoiceData) (h : SchemaConforming d) :
    WfJson (encodeInvoice d) := by
  refine WfJson.obj ?_
  intro m hm
  simp only [encodeInvoice, List.mem_cons, List.not_mem_nil, or_false] at hm
  rcases hm with rfl | rfl | rfl | rfl | rfl | rfl | rfl | rfl | rfl | rfl
  · exact WfJson.str _
  · cases hs : d.signature with
    | none => simpa [hs] using WfJson.null
    | some sig => simpa [hs] using WfJson.str sig
  · exact WfJson.str _
  · exact WfJson.str _
  · exact WfJson.str _
  · exact WfJson.str _
  · exact WfJson.str _
  · exact WfJson.str _
  · refine WfJson.arr ?_
    intro x hx
    obtain ⟨item, hitem, rfl⟩ := List.mem_map.mp hx
    refine WfJson.obj ?_
    intro p hp
    simp only [encodeItem, List.mem_cons, List.not_mem_nil, or_false] at hp
    obtain ⟨⟨n, hn⟩, hprice⟩ := h.2 item hitem
    rcases hp with rfl | rfl | rfl | rfl
    · exact WfJson.str _
    · exact WfJson.str _
    · exact WfJson.num ⟨n, 0, by simp [hn]⟩
    · exact WfJson.num hprice
  · exact WfJson.str _

/-- The JS object image of a line item determines the line item. -/
theorem encodeItem_injective : Function.Injective encodeItem := by
  intro a b h
  simp only [encodeItem, Json.obj.injEq, List.cons.injEq, Prod.mk.injEq,
    Json.str.injEq, Json.num.injEq, and_true, true_and] at h
  cases a
  cases b
  simp_all

/-- The JS object image of a draft determines the draft. -/
theorem encodeInvoice_injective : Function.Injective encodeInvoice := by
  intro a b h
  simp only [encodeInvoice, Json.obj.injEq, List.cons.injEq, Prod.mk.injEq,
    Json.str.injEq, Json.arr.injEq, and_true, true_and] at h
  obtain ⟨h1, h2, h3, h4, h5, h6, h7, h8, h9, h10⟩ := h
  have hitems : a.items = b.items := (List.map_injective_iff.mpr encodeItem_injective) h9
  have hsig : a.signature = b.signature := by
    cases ha : a.signature with
    | none =>
      cases hb : b.signature with
      | none => rfl
      | some s2 =>
        rw [ha, hb] at h2
        exact absurd h2 (by simp)
    | some s1 =>
      cases hb : b.signature with
      | none =>
        rw [ha, hb] at h2
        exact absurd h2 (by simp)
      | some s2 =>
        rw [ha, hb] at h2
        simp only [Json.str.injEq] at h2
        rw [h2]
  cases a
  cases b
  simp_all

/-- C1: saving a draft that matches the §3 schema and loading it back
returns a value deep-equal to the saved draft (the parse of the stored
JSON string is exactly the draft's JS object, which determines the
draft). -/
theorem c1_save_load_roundtrip (d : InvoiceData) (store : Option String)
    (h : SchemaConforming d) :
    loadFromLocalStorage (saveToLocalStorage d store) = encodeInvoice d ∧
    (∀ d' : InvoiceData, encodeInvoice d' = encodeInvoice d → d' = d) := by
  constructor
  · unfold saveToLocalStorage loadFromLocalStorage
    have hne : jsonStringify (encodeInvoice d) ≠ "" := by
      obtain ⟨c, t, hct, -, -, -, -⟩ :=
        printJson_head (encodeInvoice d) (encodeInvoice_wf d h)
      intro heq
      have hdata := congrArg String.data heq
      rw [show (jsonStringify (encodeInvoice d)).data = printJson (encodeInvoice d) from rfl,
        hct] at hdata
      simp at hdata
    simp only []
    rw [if_neg hne, jsonParse_stringify (encodeInvoice d) (encodeInvoice_wf d h)]
  · intro d' hd
    exact encodeInvoice_injective hd

/-- Witness for C1: the round trip at a concrete schema-conforming draft
whose strings need escaping and whose price is a proper decimal. -/
theorem c1_save_load_roundtrip_witness :
    SchemaConforming sampleDraft ∧
    loadFromLocalStorage (saveToLocalStorage sampleDraft none) = encodeInvoice sampleDraft := by
  have hs : SchemaConforming sampleDraft := by
    constructor
    · decide
    · intro item hitem
      simp only [sampleDraft, List.mem_cons, List.not_mem_nil, or_false] at hitem
      rcases hitem with rfl | rfl
      · exact ⟨⟨3, by norm_num⟩, 105, 1, by norm_num⟩
      · exact ⟨⟨1, by norm_num⟩, 0, 0, by norm_num⟩
  exact ⟨hs, (c1_save_load_roundtrip sampleDraft none hs).1⟩

end InvoiceCreator

